import Mathlib

/-!
Verification of the QuickStage.dev hosting backend core
(`src/lib/util.js`, `src/contentType.js`, `src/index.js`).

Strings are modelled as lists of characters (`Str`); the JavaScript
string operations used by the source (split, replace with the concrete
regexes appearing in the source, slice, toLowerCase, trim, endsWith,
includes) are given as explicit recursive functions.  The object store
is modelled as a function from keys to optional stored objects for the
ingestion side, and as a function from keys to fetch results
(hit / missing object / other failure) for the serving side.
-/

abbrev Str := List Char

/-- Bytes of a stored object / archive entry, as a list of byte values. -/
abbrev Bytes := List Nat

/-- JavaScript `String.prototype.toLowerCase` restricted to ASCII.
The source only ever lowercases host names and slugs; non-ASCII case
mappings are immaterial for every claim below because each use is
followed by a character-class filter or compared against ASCII data. -/
def jsToLower (s : Str) : Str :=
  s.map (fun c => if 'A' ≤ c ∧ c ≤ 'Z' then Char.ofNat (c.toNat + 32) else c)

/-- ASCII whitespace recognised by `String.prototype.trim`.  (JS also
trims some Unicode space code points; no claim depends on those.) -/
def jsWs (c : Char) : Bool :=
  c == ' ' || c == '\t' || c == '\n' || c == '\r'

/-- JavaScript `String.prototype.trim`. -/
def jsTrim (s : Str) : Str :=
  ((s.dropWhile jsWs).reverse.dropWhile jsWs).reverse

/-- JavaScript `s.split("/")`: split at every slash, keeping empty pieces. -/
def splitSlash : Str → List Str
  | [] => [[]]
  | c :: cs =>
    if c = '/' then [] :: splitSlash cs
    else
      match splitSlash cs with
      | [] => [[c]]
      | s :: t => (c :: s) :: t

/-- Collapse every run of slashes to a single slash.  This is the
combined effect of `.replace(/\/+/, "/").replace(/\/+/g, "/")` in
`safeJoinPosix` (`src/lib/util.js:20`): the first, non-global replace
collapses the first run and the second, global one collapses the rest.
The flag records whether the previous character was a slash. -/
def collapseSlashesAux : Bool → Str → Str
  | _, [] => []
  | prev, c :: cs =>
    if c = '/' then
      if prev then collapseSlashesAux true cs
      else '/' :: collapseSlashesAux true cs
    else c :: collapseSlashesAux false cs

def collapseSlashes (s : Str) : Str := collapseSlashesAux false s

/-- Segment filter of the `for` loop in `safeJoinPosix`
(`src/lib/util.js:23-27`): drop `"."`, `""` and `".."` segments. -/
def keepSeg (p : Str) : Bool :=
  !(p == ['.'] || p == []) && !(p == ['.', '.'])

/-- Model of `safeJoinPosix(prefix, rel)` (`src/lib/util.js:19-29`):
join with a slash, collapse slash runs, split on slashes, drop falsy
segments (JS `filter(Boolean)`), drop `"."`/`".."` segments, re-join. -/
def safeJoinPosix (pre rel : Str) : Str :=
  let joined := collapseSlashes (pre ++ '/' :: rel)
  let parts := (splitSlash joined).filter (fun p => !p.isEmpty)
  let safe := parts.filter keepSeg
  List.intercalate ['/'] safe

/-- JavaScript `s.startsWith(t)` (used only in statements about keys). -/
def strStartsWith (s t : Str) : Bool := s.take t.length == t

/-- JavaScript `s.endsWith(t)`. -/
def strEndsWith (s t : Str) : Bool := s.drop (s.length - t.length) == t

/-- Whether the string contains two adjacent hyphens. -/
def hasDouble : Str → Bool
  | [] => false
  | [_] => false
  | c :: d :: t => (c == '-' && d == '-') || hasDouble (d :: t)

/-- JavaScript `s.includes("..")`: two adjacent dots anywhere
(`src/index.js:167`). -/
def containsDotDot : Str → Bool
  | [] => false
  | [_] => false
  | c :: d :: t => (c == '.' && d == '.') || containsDotDot (d :: t)

/-- Characters of the slug alphabet `[a-z0-9-]`. -/
def isSlugChar (c : Char) : Bool :=
  ('a' ≤ c && c ≤ 'z') || ('0' ≤ c && c ≤ '9') || c == '-'

/-- Effect of `.replace(/[^a-z0-9-]+/g, "-")` (`src/lib/util.js:6`):
each maximal run of characters outside `[a-z0-9-]` becomes one hyphen.
The flag records whether the previous character was outside the class. -/
def collapseNonSlugAux : Bool → Str → Str
  | _, [] => []
  | prevBad, c :: cs =>
    if isSlugChar c then c :: collapseNonSlugAux false cs
    else if prevBad then collapseNonSlugAux true cs
    else '-' :: collapseNonSlugAux true cs

def collapseNonSlug (s : Str) : Str := collapseNonSlugAux false s

/-- Effect of the global regex replace of `-+` by `-`
(`src/lib/util.js:7`): each run of hyphens becomes a single hyphen. -/
def collapseHyphensAux : Bool → Str → Str
  | _, [] => []
  | prev, c :: cs =>
    if c = '-' then
      if prev then collapseHyphensAux true cs
      else '-' :: collapseHyphensAux true cs
    else c :: collapseHyphensAux false cs

def collapseHyphens (s : Str) : Str := collapseHyphensAux false s

/-- Half of `.replace(/^-|-$/g, "")` (`src/lib/util.js:8`): remove one
leading hyphen. -/
def dropLeadingHyphen (s : Str) : Str :=
  if s.head? = some '-' then s.tail else s

/-- Other half of `.replace(/^-|-$/g, "")`: remove one trailing hyphen. -/
def dropTrailingHyphen (s : Str) : Str :=
  if s.getLast? = some '-' then s.dropLast else s

/-- The normalization chain of `slugify` before the final
`.slice(0, 63)` (`src/lib/util.js:3-8`). -/
def slugCore (input : Str) : Str :=
  dropTrailingHyphen (dropLeadingHyphen
    (collapseHyphens (collapseNonSlug (jsToLower (jsTrim input)))))

/-- Model of `slugify(input)` (`src/lib/util.js:1-10`).  `!input` is
empty-string falsiness; `.slice(0, 63)` is `take 63`. -/
def slugify (input : Str) : Str :=
  if input = [] then [] else (slugCore input).take 63

/-- The `let slug = slugify(x); if (!slug) fail` pattern guarding both
slug-producing operations (`src/index.js:113-114` and
`src/index.js:145-146`): an empty normalization makes the operation
fail. -/
def requireSlug (x : Str) : Option Str :=
  let s := slugify x
  if s = [] then none else some s

/-- Extension of a path: the characters after the last dot of the last
slash-separated segment, if any. -/
def extOf (p : Str) : Str :=
  let rev := p.reverse
  let e := rev.takeWhile (fun c => !(c == '.') && !(c == '/'))
  if (rev.drop e.length).head? = some '.' then e.reverse else []

/-- Modelled from the spec: the external extension-to-MIME table (the
`mime-types` npm package consumed by `src/contentType.js`, an external
collaborator per the spec's section 6).  Only the extensions exercised
below are listed; no claim depends on the exact table contents. -/
def mimeLookup (p : Str) : Option Str :=
  let e := extOf p
  if e = "html".data ∨ e = "htm".data then some ("text/html".data)
  else if e = "css".data then some ("text/css".data)
  else if e = "js".data then some ("application/javascript".data)
  else if e = "json".data then some ("application/json".data)
  else if e = "txt".data then some ("text/plain".data)
  else if e = "png".data then some ("image/png".data)
  else none

/-- Model of `lookupContentType(path)` (`src/contentType.js:3-13`):
look up the MIME type by extension, append a UTF-8 charset for the five
text-like types, return null (here `none`) when unresolvable. -/
def lookupContentType (p : Str) : Option Str :=
  match mimeLookup p with
  | none => none
  | some ct =>
    if ct = "text/html".data then some ("text/html; charset=utf-8".data)
    else if ct = "text/css".data then some ("text/css; charset=utf-8".data)
    else if ct = "application/javascript".data then
      some ("application/javascript; charset=utf-8".data)
    else if ct = "text/plain".data then some ("text/plain; charset=utf-8".data)
    else if ct = "application/json".data then
      some ("application/json; charset=utf-8".data)
    else some ct

/-- Environment-derived configuration of `src/index.js:20-22`
(`MAIN_HOSTS`, `HOSTING_BASE_DOMAIN`, `SPA_FALLBACK`). -/
structure Config where
  mainHosts : List Str
  baseDomain : Str
  spaFallback : Bool

/-- The default configuration values of `src/index.js:20-22`. -/
def defaultCfg : Config where
  mainHosts :=
    [ "quick-stage.app".data, "www.quick-stage.app".data
    , "quickstage.app".data, "www.quickstage.app".data ]
  baseDomain := "quick-stage.app".data
  spaFallback := true

/-- Port stripping and lowercasing of `src/index.js:224`:
`host.split(":")[0].toLowerCase()`. -/
def stripHost (h : Str) : Str := jsToLower (h.takeWhile (fun c => !(c == ':')))

/-- Model of `getProjectFromHost(host)` (`src/index.js:222-237`).
`null` is `none`; note that the function can return `some []` (the JS
empty string, falsy) when the subdomain label normalizes to empty. -/
def getProjectFromHost (cfg : Config) (h : Str) : Option Str :=
  if h = [] then none
  else
    let host := stripHost h
    if host ∈ cfg.mainHosts then none
    else
      let base := jsToLower cfg.baseDomain
      if host = base then none
      else if strEndsWith host ('.' :: base) then
        let sub := host.take (host.length - (base.length + 1))
        let project := sub.takeWhile (fun c => !(c == '.'))
        some (slugify project)
      else none

/-- An object as stored in R2: body bytes plus the recorded
content-type and cache-control metadata (absent when never set). -/
structure StoredObj where
  body : Bytes
  contentType : Option Str
  cacheControl : Option Str
deriving DecidableEq

/-- Ingestion-side view of the object store: key to stored object. -/
abbrev Store := Str → Option StoredObj

def emptyStore : Store := fun _ => none

/-- A single `PutObjectCommand`: overwrite the object at a key. -/
def putObj (st : Store) (k : Str) (o : StoredObj) : Store :=
  fun k' => if k' = k then some o else st k'

/-- Result of one `GetObjectCommand` as seen by the serve handler:
a hit, the store's missing-object condition, or any other store
failure (e.g. a transient I/O failure). -/
inductive FetchResult where
  | hit : StoredObj → FetchResult
  | noSuchKey : FetchResult
  | ioError : FetchResult
deriving DecidableEq

def FetchResult.isHit : FetchResult → Bool
  | .hit _ => true
  | _ => false

/-- Serving-side view of the store: what `fetchObject` yields per key
(`src/index.js:239-241`). -/
abbrev StoreM := Str → FetchResult

/-- Replace every non-missing failure by the missing-object condition.
Used to state that the serve handler cannot distinguish the two. -/
def degradeStore (stm : StoreM) : StoreM :=
  fun k =>
    match stm k with
    | .ioError => .noSuchKey
    | r => r

/-- Response body: raw object bytes, or a fixed text body. -/
inductive RespBody where
  | bytes : Bytes → RespBody
  | text : Str → RespBody
deriving DecidableEq

/-- HTTP response produced by the serve handler: status plus the
Content-Type / Cache-Control headers it sets. -/
structure Response where
  status : Nat
  contentType : Option Str
  cacheControl : Option Str
  body : RespBody
deriving DecidableEq

/-- The 404 response of `src/index.js:284`. -/
def notFoundResp : Response :=
  ⟨404, some ("text/plain".data), none, .text ("Not Found".data)⟩

/-- JavaScript `a || b` for an optional string against a default:
`null` and the empty string both fall through. -/
def jsOrStr (a : Option Str) (b : Str) : Str :=
  match a with
  | some s => if s = [] then b else s
  | none => b

/-- JavaScript truthiness filter on an optional string header value
(`if (obj.CacheControl) ...`, `src/index.js:259`). -/
def jsTruthy (a : Option Str) : Option Str :=
  match a with
  | some s => if s = [] then none else some s
  | none => none

/-!
The fallback chain of the wildcard serve handler
(`src/index.js:253-284`), split into one definition per step.  Each
store failure is swallowed by a bare `catch`, so any non-hit result
(missing object or other failure) falls through to the next step.
-/

/-- Step 3 of the chain (`src/index.js:275-284`): SPA fallback to
`sites/<project>/index.html` when enabled, else 404. -/
def serveStep3 (spa : Bool) (stm : StoreM) (project : Str) : Response :=
  if spa then
    match stm ("sites/".data ++ project ++ "/index.html".data) with
    | .hit obj =>
      ⟨200, some (jsOrStr obj.contentType ("text/html; charset=utf-8".data)),
        none, .bytes obj.body⟩
    | .noSuchKey => notFoundResp
    | .ioError => notFoundResp
  else notFoundResp

/-- Step 2 of the chain (`src/index.js:265-273`): implicit `.html`,
only when the relative path has no dot and no trailing slash; falls
through to step 3 otherwise or on any fetch failure. -/
def serveStep2 (spa : Bool) (stm : StoreM) (project rel : Str) : Response :=
  if !(rel.contains '.') && !(strEndsWith rel ['/']) then
    match stm (safeJoinPosix ("sites/".data ++ project) (rel ++ ".html".data)) with
    | .hit obj =>
      ⟨200, some (jsOrStr obj.contentType ("text/html; charset=utf-8".data)),
        none, .bytes obj.body⟩
    | .noSuchKey => serveStep3 spa stm project
    | .ioError => serveStep3 spa stm project
  else serveStep3 spa stm project

def serveChain (spa : Bool) (stm : StoreM) (project rel : Str) : Response :=
  match stm (safeJoinPosix ("sites/".data ++ project) rel) with
  | .hit obj =>
    ⟨200,
      some (jsOrStr obj.contentType
        (jsOrStr (lookupContentType rel) ("application/octet-stream".data))),
      jsTruthy obj.cacheControl, .bytes obj.body⟩
  | .noSuchKey => serveStep2 spa stm project rel
  | .ioError => serveStep2 spa stm project rel

/-- The `app.get("*")` handler (`src/index.js:243-289`): resolve the
project from the host (falsy means 404), map `/` to `/index.html`,
strip leading slashes, then run the fallback chain. -/
def serve (cfg : Config) (stm : StoreM) (host reqPath : Str) : Response :=
  match getProjectFromHost cfg host with
  | none => notFoundResp
  | some project =>
    if project = [] then notFoundResp
    else
      let path := if reqPath = [] then ['/'] else reqPath
      let path := if path = ['/'] then "/index.html".data else path
      let rel := path.dropWhile (fun c => c == '/')
      serveChain cfg.spaFallback stm project rel

/-- One archive entry as produced by `unzipper.Open.file(...)`: its
type tag (the string `"File"` for regular files), its attacker-
controlled path, and its byte stream. -/
structure ZipEntry where
  etype : Str
  epath : Str
  content : Bytes
deriving DecidableEq

/-- The per-entry normalized relative path (`src/index.js:166`):
`entry.path.replace(/^\/+/, "")`. -/
def entryRel (e : ZipEntry) : Str := e.epath.dropWhile (fun c => c == '/')

/-- An entry survives the two skip checks of `src/index.js:164-167`:
it is a regular file and its stripped path has no `".."` substring. -/
def goodEntry (e : ZipEntry) : Bool :=
  e.etype == "File".data && !containsDotDot (entryRel e)

/-- Destination key of a good entry (`src/index.js:169`). -/
def entryKey (slug : Str) (e : ZipEntry) : Str :=
  safeJoinPosix ("sites/".data ++ slug) (entryRel e)

/-- The object a good entry is stored as (`src/index.js:170-179`):
content type by extension with an octet-stream default, cache-control
`no-cache` for `.html` files and a long-lived public value otherwise. -/
def entryObj (e : ZipEntry) : StoredObj :=
  { body := e.content
  , contentType :=
      some (jsOrStr (lookupContentType (entryRel e)) ("application/octet-stream".data))
  , cacheControl :=
      some (if strEndsWith (jsToLower (entryRel e)) (".html".data)
            then "no-cache".data else "public, max-age=86400".data) }

/-- One iteration of the entry loop (`src/index.js:163-182`), acting on
(uploaded, skipped, store). -/
def ingestStep (slug : Str) (acc : Nat × Nat × Store) (e : ZipEntry) :
    Nat × Nat × Store :=
  if !(e.etype == "File".data) then (acc.1, acc.2.1 + 1, acc.2.2)
  else if containsDotDot (entryRel e) then (acc.1, acc.2.1 + 1, acc.2.2)
  else (acc.1 + 1, acc.2.1, putObj acc.2.2 (entryKey slug e) (entryObj e))

/-- Outcome of an upload: rejected with the fixed too-many-files
validation error (`src/index.js:159-161`), or completed with the
reported uploaded/skipped counts (`src/index.js:184-190`). -/
inductive IngestOutcome where
  | rejected : IngestOutcome
  | done : Nat → Nat → IngestOutcome
deriving DecidableEq

/-- The ingestion core of the upload route (`src/index.js:157-190`):
fail fast when the archive lists more than 2000 entries, otherwise run
the entry loop over the store. -/
def ingest (slug : Str) (entries : List ZipEntry) (st : Store) :
    IngestOutcome × Store :=
  if entries.length > 2000 then (.rejected, st)
  else
    let r := entries.foldl (ingestStep slug) (0, 0, st)
    (.done r.1 r.2.1, r.2.2)

/-- The key/value writes ingestion performs, in order: one put per
surviving entry. -/
def writesOf (slug : Str) (entries : List ZipEntry) : List (Str × StoredObj) :=
  (entries.filter goodEntry).map (fun e => (entryKey slug e, entryObj e))

/-- Apply a list of writes to a store, in order (overwrite semantics). -/
def applyWrites (ws : List (Str × StoredObj)) (st : Store) : Store :=
  ws.foldl (fun s kv => putObj s kv.1 kv.2) st

/-- Value of the last write at a key, if any. -/
def findLastVal : List (Str × StoredObj) → Str → Option StoredObj
  | [], _ => none
  | kv :: ws, k =>
    match findLastVal ws k with
    | some v => some v
    | none => if kv.1 = k then some kv.2 else none

/-- A well-formed project slug: non-empty, drawn from `[a-z0-9-]`
(the repository's data model for slugs; every slug reaching the
ingestion or serving core flows through `slugify`). -/
abbrev isWfSlug (slug : Str) : Prop :=
  slug ≠ [] ∧ ∀ c ∈ slug, isSlugChar c = true

/-! ### Concrete fixtures used by the concrete theorems below -/

/-- A stored `about.html` object, as ingestion would record it. -/
def aboutObj : StoredObj :=
  ⟨[1, 2, 3], some ("text/html; charset=utf-8".data), some ("no-cache".data)⟩

/-- A stored object at the extensionless exact key `about`. -/
def exactObj : StoredObj :=
  ⟨[9, 9], some ("application/octet-stream".data), some ("public, max-age=86400".data)⟩

/-- A stored `index.html` object for the SPA fixtures. -/
def spaObj : StoredObj :=
  ⟨[5, 6], some ("text/html; charset=utf-8".data), some ("no-cache".data)⟩

/-- Store holding only `sites/demo/about.html`. -/
def store5 : StoreM :=
  fun k => if k = ("sites/demo/about.html".data) then .hit aboutObj else .noSuchKey

/-- Store holding both `sites/demo/about` and `sites/demo/about.html`. -/
def store5b : StoreM :=
  fun k =>
    if k = ("sites/demo/about".data) then .hit exactObj
    else if k = ("sites/demo/about.html".data) then .hit aboutObj
    else .noSuchKey

/-- Store holding only `sites/demo/x.y.html`. -/
def store5c : StoreM :=
  fun k => if k = ("sites/demo/x.y.html".data) then .hit aboutObj else .noSuchKey

/-- Store failing with a non-missing error on `sites/demo/about` while
`sites/demo/about.html` exists. -/
def store3 : StoreM :=
  fun k =>
    if k = ("sites/demo/about".data) then .ioError
    else if k = ("sites/demo/about.html".data) then .hit aboutObj
    else .noSuchKey

/-- Store holding only `sites/demo/index.html`. -/
def store6 : StoreM :=
  fun k => if k = ("sites/demo/index.html".data) then .hit spaObj else .noSuchKey

/-- A file entry whose path normalizes to no segments at all. -/
def dotEntry : ZipEntry := ⟨"File".data, ".".data, [104, 105]⟩

/-- A file entry whose path has a `..` substring but no `..` segment. -/
def dotdotEntry : ZipEntry := ⟨"File".data, "notes..txt".data, [1]⟩

/-- An ordinary small file entry. -/
def plainEntry : ZipEntry := ⟨"File".data, "a/b.css".data, [1, 2]⟩

/-! ### Segment machinery for `safeJoinPosix` -/

/-- Non-empty pieces of the slash-split (the JS `filter(Boolean)`). -/
def segsNE (s : Str) : List Str := (splitSlash s).filter (fun p => !p.isEmpty)

/-- Segments surviving the whole `safeJoinPosix` filter. -/
def goodSegs (s : Str) : List Str := (segsNE s).filter keepSeg

theorem splitSlash_ne_nil (s : Str) : splitSlash s ≠ [] := by
  cases s with
  | nil => simp [splitSlash]
  | cons c cs =>
    simp only [splitSlash]
    split
    · simp
    · split <;> simp

theorem splitSlash_append (a b : Str) :
    splitSlash (a ++ '/' :: b) = splitSlash a ++ splitSlash b := by
  induction a with
  | nil => simp [splitSlash]
  | cons c cs ih =>
    by_cases h : c = '/'
    · subst h
      simp only [List.cons_append, splitSlash, if_pos rfl]
      simpa using ih
    · simp only [List.cons_append, splitSlash, if_neg h]
      cases hc : splitSlash cs with
      | nil => exact absurd hc (splitSlash_ne_nil cs)
      | cons s t =>
        rw [show cs.append ('/' :: b) = cs ++ '/' :: b from rfl, ih, hc]
        simp

theorem splitSlash_cons_of_ne (c : Char) (cs : Str) (h : c ≠ '/') :
    splitSlash (c :: cs)
      = match splitSlash cs with
        | [] => [[c]]
        | s :: t => (c :: s) :: t := by
  simp [splitSlash, h]

theorem splitSlash_head (s : Str) :
    ∃ t, splitSlash s = s.takeWhile (fun c => c != '/') :: t := by
  induction s with
  | nil => exact ⟨[], rfl⟩
  | cons c cs ih =>
    by_cases h : c = '/'
    · subst h
      refine ⟨splitSlash cs, ?_⟩
      simp [splitSlash, List.takeWhile]
    · obtain ⟨t, ht⟩ := ih
      refine ⟨t, ?_⟩
      have hb : (c != '/') = true := by simp [h]
      rw [splitSlash_cons_of_ne c cs h, ht, List.takeWhile, hb]

theorem collapseSlashesAux_takeWhile (s : Str) :
    (collapseSlashesAux false s).takeWhile (fun c => c != '/')
      = s.takeWhile (fun c => c != '/') := by
  induction s with
  | nil => rfl
  | cons c cs ih =>
    by_cases h : c = '/'
    · subst h
      simp [collapseSlashesAux, List.takeWhile]
    · have e1 : collapseSlashesAux false (c :: cs) = c :: collapseSlashesAux false cs := by
        simp [collapseSlashesAux, h]
      have hb : (c != '/') = true := by simp [h]
      rw [e1, List.takeWhile, List.takeWhile, hb, ih]

theorem segsNE_collapseAux : ∀ (s : Str) (b : Bool),
    segsNE (collapseSlashesAux b s) = segsNE s := by
  intro s
  induction s with
  | nil => intro b; rfl
  | cons c cs ih =>
    intro b
    by_cases h : c = '/'
    · subst h
      have e2 : segsNE ('/' :: cs) = segsNE cs := by
        simp [segsNE, splitSlash]
      cases b with
      | true =>
        have e1 : collapseSlashesAux true ('/' :: cs) = collapseSlashesAux true cs := by
          simp [collapseSlashesAux]
        rw [e1, ih true, e2]
      | false =>
        have e1 : collapseSlashesAux false ('/' :: cs)
            = '/' :: collapseSlashesAux true cs := by
          simp [collapseSlashesAux]
        have e3 : segsNE ('/' :: collapseSlashesAux true cs)
            = segsNE (collapseSlashesAux true cs) := by
          simp [segsNE, splitSlash]
        rw [e1, e3, ih true, e2]
    · have e1 : collapseSlashesAux b (c :: cs) = c :: collapseSlashesAux false cs := by
        cases b <;> simp [collapseSlashesAux, h]
      rw [e1]
      obtain ⟨t₁, ht₁⟩ := splitSlash_head (collapseSlashesAux false cs)
      obtain ⟨t₂, ht₂⟩ := splitSlash_head cs
      rw [collapseSlashesAux_takeWhile cs] at ht₁
      have hIH : segsNE (collapseSlashesAux false cs) = segsNE cs := ih false
      have hft : List.filter (fun p => !p.isEmpty) t₁
          = List.filter (fun p => !p.isEmpty) t₂ := by
        have h1 := hIH
        rw [segsNE, segsNE, ht₁, ht₂] at h1
        cases hw : List.takeWhile (fun x => x != '/') cs with
        | nil => simpa [hw, List.filter_cons] using h1
        | cons w ws =>
          rw [hw] at h1
          simpa [List.filter_cons] using h1
      have hs₁ : splitSlash (c :: collapseSlashesAux false cs)
          = (c :: List.takeWhile (fun x => x != '/') cs) :: t₁ := by
        rw [splitSlash_cons_of_ne c _ h, ht₁]
      have hs₂ : splitSlash (c :: cs)
          = (c :: List.takeWhile (fun x => x != '/') cs) :: t₂ := by
        rw [splitSlash_cons_of_ne c _ h, ht₂]
      rw [segsNE, segsNE, hs₁, hs₂]
      simp [List.filter_cons, hft]

theorem segsNE_collapse (s : Str) : segsNE (collapseSlashes s) = segsNE s :=
  segsNE_collapseAux s false

theorem segsNE_append (a b : Str) : segsNE (a ++ '/' :: b) = segsNE a ++ segsNE b := by
  simp [segsNE, splitSlash_append, List.filter_append]

theorem goodSegs_append (a b : Str) :
    goodSegs (a ++ '/' :: b) = goodSegs a ++ goodSegs b := by
  simp [goodSegs, segsNE_append, List.filter_append]

/-- Characterization of `safeJoinPosix`: the surviving segments of the
two arguments, joined by slashes. -/
theorem safeJoinPosix_eq (pre rel : Str) :
    safeJoinPosix pre rel = List.intercalate ['/'] (goodSegs pre ++ goodSegs rel) := by
  rw [safeJoinPosix]
  have h1 : (splitSlash (collapseSlashes (pre ++ '/' :: rel))).filter (fun p => !p.isEmpty)
      = segsNE (pre ++ '/' :: rel) := by
    rw [show (splitSlash (collapseSlashes (pre ++ '/' :: rel))).filter (fun p => !p.isEmpty)
        = segsNE (collapseSlashes (pre ++ '/' :: rel)) from rfl]
    rw [segsNE_collapse]
  rw [h1, segsNE_append]
  rw [show (segsNE pre ++ segsNE rel).filter keepSeg = goodSegs pre ++ goodSegs rel from by
    simp [goodSegs, List.filter_append]]

theorem splitSlash_no_slash (s : Str) : ∀ x ∈ splitSlash s, '/' ∉ x := by
  induction s with
  | nil => intro x hx; simp [splitSlash] at hx; simp [hx]
  | cons c cs ih =>
    intro x hx
    by_cases h : c = '/'
    · subst h
      have e : splitSlash ('/' :: cs) = [] :: splitSlash cs := by simp [splitSlash]
      rw [e] at hx
      rcases List.mem_cons.mp hx with rfl | hx
      · simp
      · exact ih x hx
    · rw [splitSlash_cons_of_ne c cs h] at hx
      cases hc : splitSlash cs with
      | nil => exact absurd hc (splitSlash_ne_nil cs)
      | cons s₀ t₀ =>
        rw [hc] at hx
        simp only [List.mem_cons] at hx
        rcases hx with rfl | hx
        · intro hmem
          rcases List.mem_cons.mp hmem with rfl | hmem'
          · exact h rfl
          · exact ih s₀ (by rw [hc]; exact List.mem_cons_self _ _) hmem'
        · exact ih x (by rw [hc]; exact List.mem_cons_of_mem _ hx)

theorem splitSlash_of_no_slash (s : Str) (h : '/' ∉ s) : splitSlash s = [s] := by
  induction s with
  | nil => rfl
  | cons c cs ih =>
    have hc : c ≠ '/' := fun he => h (he ▸ List.mem_cons_self c cs)
    have hcs : '/' ∉ cs := fun hm => h (List.mem_cons_of_mem c hm)
    rw [splitSlash_cons_of_ne c cs hc, ih hcs]

/-- Re-splitting an intercalated list of slash-free segments recovers
the segments. -/
theorem splitSlash_intercalate (L : List Str) (hne : L ≠ [])
    (hx : ∀ x ∈ L, '/' ∉ x) : splitSlash (List.intercalate ['/'] L) = L := by
  induction L with
  | nil => exact absurd rfl hne
  | cons a L ih =>
    cases L with
    | nil =>
      rw [show List.intercalate ['/'] [a] = a from by simp [List.intercalate]]
      exact splitSlash_of_no_slash a (hx a (List.mem_cons_self _ _))
    | cons b L' =>
      have hstep : List.intercalate ['/'] (a :: b :: L')
          = a ++ '/' :: List.intercalate ['/'] (b :: L') := by
        simp [List.intercalate, List.intersperse]
      rw [hstep, splitSlash_append,
        splitSlash_of_no_slash a (hx a (List.mem_cons_self _ _)),
        ih (by simp) (fun x hm => hx x (List.mem_cons_of_mem _ hm))]
      rfl

theorem keepSeg_spec (x : Str) :
    keepSeg x = true ↔ x ≠ ['.'] ∧ x ≠ [] ∧ x ≠ ['.', '.'] := by
  simp [keepSeg, not_or]
  tauto

theorem mem_goodSegs (s : Str) (x : Str) (hx : x ∈ goodSegs s) :
    x ∈ splitSlash s ∧ x ≠ [] ∧ x ≠ ['.', '.'] := by
  rw [goodSegs] at hx
  have h1 := List.mem_filter.mp hx
  have h2 := List.mem_filter.mp h1.1
  refine ⟨h2.1, ?_, ((keepSeg_spec x).mp h1.2).2.2⟩
  have := h2.2
  simpa using this

theorem goodSegs_nil : goodSegs [] = [] := by decide

theorem wfSlug_no_slash (slug : Str) (h : isWfSlug slug) : '/' ∉ slug :=
  fun hm => absurd (h.2 '/' hm) (by decide)

theorem goodSegs_wfSlug (slug : Str) (h : isWfSlug slug) : goodSegs slug = [slug] := by
  have hsp : splitSlash slug = [slug] := splitSlash_of_no_slash slug (wfSlug_no_slash slug h)
  have hne : slug.isEmpty = false := by
    cases slug with
    | nil => exact absurd rfl h.1
    | cons a l => rfl
  have hks : keepSeg slug = true := by
    refine (keepSeg_spec slug).mpr ⟨?_, h.1, ?_⟩
    · rintro rfl
      exact absurd (h.2 '.' (by simp)) (by decide)
    · rintro rfl
      exact absurd (h.2 '.' (by simp)) (by decide)
  simp [goodSegs, segsNE, hsp, List.filter, hne, hks]

theorem sitesPre_eq (slug : Str) :
    "sites/".data ++ slug = "sites".data ++ '/' :: slug := by
  rfl

theorem goodSegs_sitesSlug (slug : Str) (h : isWfSlug slug) :
    goodSegs ("sites/".data ++ slug) = ["sites".data, slug] := by
  rw [sitesPre_eq, goodSegs_append, goodSegs_wfSlug slug h]
  rfl

theorem intercalate_pair (a b : Str) : List.intercalate ['/'] [a, b] = a ++ '/' :: b := by
  simp [List.intercalate, List.intersperse]

theorem intercalate_cons₂ (a b : Str) (l : List Str) :
    List.intercalate ['/'] (a :: b :: l) = a ++ '/' :: List.intercalate ['/'] (b :: l) := by
  simp [List.intercalate, List.intersperse]

theorem strStartsWith_append (t u : Str) : strStartsWith (t ++ u) t = true := by
  simp [strStartsWith, List.take_left]

/-- Where `safeJoinPosix` can land, for a well-formed slug: exactly the
namespace root `sites/<slug>`, or a key strictly below `sites/<slug>/`;
in both cases every slash-separated segment of the key is non-empty and
differs from `".."`. -/
theorem safeJoin_under_ns (slug rel : Str) (h : isWfSlug slug) :
    (safeJoinPosix ("sites/".data ++ slug) rel = "sites/".data ++ slug
      ∨ strStartsWith (safeJoinPosix ("sites/".data ++ slug) rel)
          ("sites/".data ++ slug ++ ['/']) = true)
    ∧ ∀ seg ∈ splitSlash (safeJoinPosix ("sites/".data ++ slug) rel),
        seg ≠ [] ∧ seg ≠ ['.', '.'] := by
  have hkey : safeJoinPosix ("sites/".data ++ slug) rel
      = List.intercalate ['/'] ("sites".data :: slug :: goodSegs rel) := by
    rw [safeJoinPosix_eq, goodSegs_sitesSlug slug h]
    rfl
  have hLs : ∀ x ∈ "sites".data :: slug :: goodSegs rel, '/' ∉ x := by
    intro x hx
    rcases List.mem_cons.mp hx with rfl | hx
    · decide
    · rcases List.mem_cons.mp hx with rfl | hx
      · exact wfSlug_no_slash _ h
      · exact splitSlash_no_slash rel x (mem_goodSegs rel x hx).1
  have hsegs : splitSlash (safeJoinPosix ("sites/".data ++ slug) rel)
      = "sites".data :: slug :: goodSegs rel := by
    rw [hkey]
    exact splitSlash_intercalate _ (by simp) hLs
  constructor
  · cases hk : goodSegs rel with
    | nil =>
      left
      rw [hkey, hk, intercalate_pair, sitesPre_eq]
    | cons r rs =>
      right
      rw [hkey, hk, intercalate_cons₂, intercalate_cons₂]
      have : "sites".data ++ '/' :: (slug ++ '/' :: List.intercalate ['/'] (r :: rs))
          = ("sites/".data ++ slug ++ ['/']) ++ List.intercalate ['/'] (r :: rs) := by
        simp [sitesPre_eq]
      rw [this]
      exact strStartsWith_append _ _
  · intro seg hseg
    rw [hsegs] at hseg
    rcases List.mem_cons.mp hseg with rfl | hseg
    · exact ⟨by decide, by decide⟩
    · rcases List.mem_cons.mp hseg with rfl | hseg
      · refine ⟨h.1, ?_⟩
        rintro rfl
        exact absurd (h.2 '.' (by simp)) (by decide)
      · exact ⟨(mem_goodSegs rel seg hseg).2.1, (mem_goodSegs rel seg hseg).2.2⟩

/-- A trailing slash on the namespace argument makes no difference. -/
theorem safeJoin_pre_slash (slug rel : Str) :
    safeJoinPosix ("sites/".data ++ slug ++ ['/']) rel
      = safeJoinPosix ("sites/".data ++ slug) rel := by
  rw [safeJoinPosix_eq, safeJoinPosix_eq]
  have h1 : "sites/".data ++ slug ++ ['/'] = "sites".data ++ '/' :: (slug ++ '/' :: []) := by
    simp [sitesPre_eq, List.append_assoc]
  have h2 : goodSegs (slug ++ '/' :: []) = goodSegs slug := by
    rw [goodSegs_append, goodSegs_nil, List.append_nil]
  rw [h1, goodSegs_append, h2, sitesPre_eq, goodSegs_append]

/-! ### Store-write machinery for ingestion -/

theorem applyWrites_cons (kv : Str × StoredObj) (ws : List (Str × StoredObj)) (st : Store) :
    applyWrites (kv :: ws) st = applyWrites ws (putObj st kv.1 kv.2) := rfl

theorem applyWrites_apply (ws : List (Str × StoredObj)) (st : Store) (k : Str) :
    applyWrites ws st k = (findLastVal ws k).or (st k) := by
  induction ws generalizing st with
  | nil => simp [applyWrites, findLastVal]
  | cons kv ws ih =>
    rw [applyWrites_cons, ih]
    cases hf : findLastVal ws k with
    | some v => simp [findLastVal, hf]
    | none =>
      simp only [findLastVal, hf, putObj, Option.or]
      by_cases hk : kv.1 = k
      · simp [hk]
      · have hk' : ¬ k = kv.1 := fun he => hk he.symm
        simp [hk, hk']

theorem applyWrites_idem (ws : List (Str × StoredObj)) (st : Store) :
    applyWrites ws (applyWrites ws st) = applyWrites ws st := by
  funext k
  rw [applyWrites_apply, applyWrites_apply]
  cases findLastVal ws k <;> simp [Option.or]

theorem findLastVal_some_mem (ws : List (Str × StoredObj)) (k : Str) :
    ∀ v, findLastVal ws k = some v → ∃ kv ∈ ws, kv.1 = k := by
  induction ws with
  | nil => intro v h; simp [findLastVal] at h
  | cons kv ws ih =>
    intro v h
    rw [findLastVal] at h
    cases hf : findLastVal ws k with
    | some w =>
      obtain ⟨kv', hm, hk⟩ := ih w hf
      exact ⟨kv', List.mem_cons_of_mem _ hm, hk⟩
    | none =>
      rw [hf] at h
      by_cases hk : kv.1 = k
      · exact ⟨kv, List.mem_cons_self _ _, hk⟩
      · simp [hk] at h

theorem applyWrites_changed (ws : List (Str × StoredObj)) (st : Store) (k : Str)
    (h : applyWrites ws st k ≠ st k) : ∃ kv ∈ ws, kv.1 = k := by
  rw [applyWrites_apply] at h
  cases hf : findLastVal ws k with
  | some v => exact findLastVal_some_mem ws k v hf
  | none => rw [hf] at h; simp [Option.or] at h

/-- The entry loop is a pure fold: counts split by `goodEntry`, the
store receives exactly the writes of the surviving entries. -/
theorem ingest_fold_spec (slug : Str) (entries : List ZipEntry) :
    ∀ (up sk : Nat) (st : Store),
    entries.foldl (ingestStep slug) (up, sk, st)
      = (up + (entries.filter goodEntry).length,
         sk + (entries.filter (fun e => !(goodEntry e))).length,
         applyWrites (writesOf slug entries) st) := by
  induction entries with
  | nil => intro up sk st; simp [writesOf, applyWrites]
  | cons e es ih =>
    intro up sk st
    by_cases hg : goodEntry e = true
    · have hstep : ingestStep slug (up, sk, st) e
          = (up + 1, sk, putObj st (entryKey slug e) (entryObj e)) := by
        have h1 : (e.etype == "File".data) = true := by
          have := hg
          simp [goodEntry, Bool.and_eq_true] at this
          simp [this.1]
        have h2 : containsDotDot (entryRel e) = false := by
          have := hg
          simp [goodEntry, Bool.and_eq_true] at this
          simpa using this.2
        simp [ingestStep, h1, h2]
      rw [List.foldl_cons, hstep, ih]
      have hw : writesOf slug (e :: es)
          = (entryKey slug e, entryObj e) :: writesOf slug es := by
        simp [writesOf, List.filter_cons, hg]
      rw [hw, applyWrites_cons]
      simp [List.filter_cons, hg, Nat.add_comm, Nat.add_assoc, Nat.add_left_comm]
    · have hg' : goodEntry e = false := by simpa using hg
      have hstep : ingestStep slug (up, sk, st) e = (up, sk + 1, st) := by
        by_cases h1 : (e.etype == "File".data) = true
        · have h2 : containsDotDot (entryRel e) = true := by
            simp [goodEntry, h1] at hg'
            exact hg'
          simp [ingestStep, h1, h2]
        · have h1' : (e.etype == "File".data) = false := by simpa using h1
          simp [ingestStep, h1']
      rw [List.foldl_cons, hstep, ih]
      have hw : writesOf slug (e :: es) = writesOf slug es := by
        simp [writesOf, List.filter_cons, hg']
      rw [hw]
      simp [List.filter_cons, hg', Nat.add_comm, Nat.add_assoc, Nat.add_left_comm]

theorem length_filter_split (l : List ZipEntry) (p : ZipEntry → Bool) :
    (l.filter p).length + (l.filter (fun e => !(p e))).length = l.length := by
  induction l with
  | nil => rfl
  | cons e es ih =>
    by_cases h : p e = true
    · simp [List.filter_cons, h, ← ih]
      omega
    · have h' : p e = false := by simpa using h
      simp [List.filter_cons, h', ← ih]
      omega

/-! ### Lemmas about the slug normalization chain -/

theorem mem_collapseNonSlugAux : ∀ (s : Str) (b : Bool) (c : Char),
    c ∈ collapseNonSlugAux b s → isSlugChar c = true := by
  intro s
  induction s with
  | nil => intro b c hc; simp [collapseNonSlugAux] at hc
  | cons a l ih =>
    intro b c hc
    by_cases ha : isSlugChar a = true
    · rw [collapseNonSlugAux, if_pos ha] at hc
      rcases List.mem_cons.mp hc with rfl | hc
      · exact ha
      · exact ih false c hc
    · rw [collapseNonSlugAux, if_neg ha] at hc
      by_cases hb : b = true
      · rw [hb] at hc
        simp only [if_pos rfl] at hc
        exact ih true c hc
      · have hb' : b = false := by simpa using hb
        rw [hb'] at hc
        simp only [Bool.false_eq_true, if_neg] at hc
        rcases List.mem_cons.mp hc with rfl | hc
        · decide
        · exact ih true c hc

theorem mem_collapseHyphensAux : ∀ (s : Str) (b : Bool) (c : Char),
    c ∈ collapseHyphensAux b s → c ∈ s := by
  intro s
  induction s with
  | nil => intro b c hc; simp [collapseHyphensAux] at hc
  | cons a l ih =>
    intro b c hc
    by_cases ha : a = '-'
    · subst ha
      rw [collapseHyphensAux, if_pos rfl] at hc
      by_cases hb : b = true
      · rw [hb] at hc
        simp only [if_pos rfl] at hc
        exact List.mem_cons_of_mem _ (ih true c hc)
      · have hb' : b = false := by simpa using hb
        rw [hb'] at hc
        simp only [Bool.false_eq_true, if_neg] at hc
        rcases List.mem_cons.mp hc with rfl | hc
        · exact List.mem_cons_self _ _
        · exact List.mem_cons_of_mem _ (ih true c hc)
    · rw [collapseHyphensAux, if_neg ha] at hc
      rcases List.mem_cons.mp hc with rfl | hc
      · exact List.mem_cons_self _ _
      · exact List.mem_cons_of_mem _ (ih false c hc)

theorem head_collapseHyphensAux_true (s : Str) :
    (collapseHyphensAux true s).head? ≠ some '-' := by
  induction s with
  | nil => simp [collapseHyphensAux]
  | cons a l ih =>
    by_cases ha : a = '-'
    · subst ha
      rw [collapseHyphensAux, if_pos rfl]
      simpa using ih
    · rw [collapseHyphensAux, if_neg ha]
      simpa using ha

theorem hasDouble_cons_of_ne (c : Char) (s : Str) (hc : c ≠ '-') :
    hasDouble (c :: s) = hasDouble s := by
  cases s with
  | nil => simp [hasDouble]
  | cons d t => simp [hasDouble, hc]

theorem hasDouble_collapseHyphensAux : ∀ (s : Str) (b : Bool),
    hasDouble (collapseHyphensAux b s) = false := by
  intro s
  induction s with
  | nil => intro b; rfl
  | cons a l ih =>
    intro b
    by_cases ha : a = '-'
    · subst ha
      rw [collapseHyphensAux, if_pos rfl]
      cases b with
      | true => simpa using ih true
      | false =>
        rw [if_neg (by simp)]
        cases he : collapseHyphensAux true l with
        | nil => simp [hasDouble]
        | cons x xs =>
          have hx : x ≠ '-' := by
            have := head_collapseHyphensAux_true l
            rw [he] at this
            simpa using this
          rw [show hasDouble ('-' :: x :: xs) = hasDouble (x :: xs) from by
            simp [hasDouble, hx]]
          rw [← he]
          exact ih true
    · rw [collapseHyphensAux, if_neg ha]
      rw [hasDouble_cons_of_ne a _ ha]
      exact ih false

theorem hasDouble_tail (c : Char) (s : Str) (h : hasDouble (c :: s) = false) :
    hasDouble s = false := by
  cases s with
  | nil => rfl
  | cons d t =>
    rw [hasDouble] at h
    exact (Bool.or_eq_false_iff.mp h).2

theorem hasDouble_take : ∀ (s : Str) (n : Nat), hasDouble s = false →
    hasDouble (s.take n) = false := by
  intro s
  induction s with
  | nil =>
    intro n _
    rw [List.take_nil]
    rfl
  | cons c cs ih =>
    intro n h
    cases n with
    | zero => rfl
    | succ m =>
      rw [List.take_succ_cons]
      cases ht : cs.take m with
      | nil => simp [hasDouble]
      | cons x xs =>
        have hx : hasDouble (cs.take m) = false := ih m (hasDouble_tail c cs h)
        by_cases hc : c = '-'
        · subst hc
          by_cases hxh : x = '-'
          · subst hxh
            have : '-' ∈ cs.take m := by rw [ht]; exact List.mem_cons_self _ _
            have hmem : '-' ∈ cs := List.take_subset m cs this
            cases cs with
            | nil => simp at hmem
            | cons d t =>
              have hd : d = '-' := by
                cases hm : m with
                | zero => rw [hm] at ht; simp [List.take] at ht
                | succ m' =>
                  rw [hm, List.take_succ_cons] at ht
                  exact (List.cons.injEq _ _ _ _ ▸ ht).1.symm ▸ rfl
              rw [hd] at h
              simp [hasDouble] at h
          · rw [ht] at hx
            have : hasDouble ('-' :: x :: xs) = hasDouble (x :: xs) := by
              simp [hasDouble, hxh]
            rw [this]
            exact hx
        · rw [hasDouble_cons_of_ne c _ hc, ← ht]
          exact hx

theorem getLast?_eq_some_ex : ∀ (l : Str) (a : Char), l.getLast? = some a →
    ∃ u, l = u ++ [a] := by
  intro l
  induction l with
  | nil => intro a h; simp at h
  | cons c cs ih =>
    intro a h
    cases cs with
    | nil =>
      simp only [List.getLast?_singleton, Option.some.injEq] at h
      exact ⟨[], by rw [h]; simp⟩
    | cons d t =>
      rw [List.getLast?_cons_cons] at h
      obtain ⟨u, hu⟩ := ih a h
      exact ⟨c :: u, by rw [List.cons_append, ← hu]⟩

theorem hasDouble_append_double : ∀ (u t : Str), hasDouble (u ++ '-' :: '-' :: t) = true := by
  intro u
  induction u with
  | nil => intro t; simp [hasDouble]
  | cons c u' ih =>
    intro t
    cases u' with
    | nil => simp [hasDouble]
    | cons d u'' =>
      rw [List.cons_append, List.cons_append]
      rw [show hasDouble (c :: d :: (u'' ++ '-' :: '-' :: t))
          = ((c == '-' && d == '-') || hasDouble (d :: (u'' ++ '-' :: '-' :: t))) from rfl]
      rw [show d :: (u'' ++ '-' :: '-' :: t) = (d :: u'') ++ '-' :: '-' :: t from rfl]
      rw [ih t]
      simp

theorem hasDouble_dropLast (s : Str) (h : hasDouble s = false) :
    hasDouble s.dropLast = false := by
  rw [List.dropLast_eq_take]
  exact hasDouble_take s _ h

theorem hasDouble_tail' (s : Str) (h : hasDouble s = false) :
    hasDouble s.tail = false := by
  cases s with
  | nil => rfl
  | cons c cs => exact hasDouble_tail c cs h

theorem hasDouble_dropLeadingHyphen (s : Str) (h : hasDouble s = false) :
    hasDouble (dropLeadingHyphen s) = false := by
  rw [dropLeadingHyphen]
  split
  · exact hasDouble_tail' s h
  · exact h

theorem hasDouble_dropTrailingHyphen (s : Str) (h : hasDouble s = false) :
    hasDouble (dropTrailingHyphen s) = false := by
  rw [dropTrailingHyphen]
  split
  · exact hasDouble_dropLast s h
  · exact h

theorem head_dropLeadingHyphen (s : Str) (h : hasDouble s = false) :
    (dropLeadingHyphen s).head? ≠ some '-' := by
  rw [dropLeadingHyphen]
  split
  · rename_i hh
    cases s with
    | nil => simp at hh
    | cons c cs =>
      simp only [List.head?_cons, Option.some.injEq] at hh
      subst hh
      cases cs with
      | nil => simp
      | cons d t =>
        intro hd
        simp only [List.tail_cons, List.head?_cons, Option.some.injEq] at hd
        subst hd
        simp [hasDouble] at h
  · rename_i hh
    exact hh

theorem getLast_dropTrailingHyphen (s : Str) (h : hasDouble s = false) :
    (dropTrailingHyphen s).getLast? ≠ some '-' := by
  rw [dropTrailingHyphen]
  split
  · rename_i hg
    intro hcon
    obtain ⟨v, hv⟩ := getLast?_eq_some_ex s '-' hg
    rw [hv, List.dropLast_concat] at hcon
    obtain ⟨u, hu⟩ := getLast?_eq_some_ex v '-' hcon
    have htrue := hasDouble_append_double u []
    rw [hv, hu, List.append_assoc] at h
    simp only [List.cons_append, List.nil_append] at h
    rw [htrue] at h
    simp at h
  · rename_i hg
    exact hg

theorem head?_dropTrailingHyphen_ne (s : Str) (a : Char) (h : s.head? ≠ some a) :
    (dropTrailingHyphen s).head? ≠ some a := by
  rw [dropTrailingHyphen]
  split
  · cases s with
    | nil => simp
    | cons c cs =>
      cases cs with
      | nil => simp
      | cons d t =>
        rw [show (c :: d :: t).dropLast = c :: (d :: t).dropLast from rfl]
        simp only [List.head?_cons] at h ⊢
        exact h
  · exact h

theorem mem_tail_mem (s : Str) (c : Char) (h : c ∈ s.tail) : c ∈ s := by
  cases s with
  | nil => simp at h
  | cons a l => exact List.mem_cons_of_mem _ h

theorem mem_dropLeadingHyphen (s : Str) (c : Char) (h : c ∈ dropLeadingHyphen s) :
    c ∈ s := by
  rw [dropLeadingHyphen] at h
  by_cases hh : s.head? = some '-'
  · rw [if_pos hh] at h
    exact mem_tail_mem s c h
  · rwa [if_neg hh] at h

theorem mem_dropTrailingHyphen (s : Str) (c : Char) (h : c ∈ dropTrailingHyphen s) :
    c ∈ s := by
  rw [dropTrailingHyphen] at h
  by_cases hh : s.getLast? = some '-'
  · rw [if_pos hh] at h
    exact List.dropLast_subset s h
  · rwa [if_neg hh] at h

/-- All the structural facts about `slugCore` needed for the slug
data-model claim. -/
theorem slugCore_facts (input : Str) :
    (∀ c ∈ slugCore input, isSlugChar c = true)
    ∧ hasDouble (slugCore input) = false
    ∧ (slugCore input).head? ≠ some '-'
    ∧ (slugCore input).getLast? ≠ some '-' := by
  rw [slugCore]
  set Y := collapseHyphens (collapseNonSlug (jsToLower (jsTrim input))) with hY
  have hYd : hasDouble Y = false := hasDouble_collapseHyphensAux _ false
  have hYc : ∀ c ∈ Y, isSlugChar c = true := by
    intro c hc
    exact mem_collapseNonSlugAux _ false c (mem_collapseHyphensAux _ false c hc)
  have hL : hasDouble (dropLeadingHyphen Y) = false := hasDouble_dropLeadingHyphen Y hYd
  refine ⟨?_, ?_, ?_, ?_⟩
  · intro c hc
    exact hYc c (mem_dropLeadingHyphen Y c (mem_dropTrailingHyphen _ c hc))
  · exact hasDouble_dropTrailingHyphen _ hL
  · exact head?_dropTrailingHyphen_ne _ '-' (head_dropLeadingHyphen Y hYd)
  · exact getLast_dropTrailingHyphen _ hL

/-! ### Serving-side lemmas -/

theorem degradeStore_eq_hit (stm : StoreM) (k : Str) (obj : StoredObj)
    (h : stm k = .hit obj) : degradeStore stm k = .hit obj := by
  simp [degradeStore, h]

theorem degradeStore_eq_miss (stm : StoreM) (k : Str)
    (h : stm k = .noSuchKey) : degradeStore stm k = .noSuchKey := by
  simp [degradeStore, h]

theorem degradeStore_eq_io (stm : StoreM) (k : Str)
    (h : stm k = .ioError) : degradeStore stm k = .noSuchKey := by
  simp [degradeStore, h]

theorem serveStep3_degrade (spa : Bool) (stm : StoreM) (project : Str) :
    serveStep3 spa (degradeStore stm) project = serveStep3 spa stm project := by
  unfold serveStep3
  cases spa with
  | false => rfl
  | true =>
    rw [if_pos rfl, if_pos rfl]
    cases h : stm ("sites/".data ++ project ++ "/index.html".data) with
    | hit obj =>
      rw [degradeStore_eq_hit stm _ obj h]
    | noSuchKey =>
      rw [degradeStore_eq_miss stm _ h]
    | ioError =>
      rw [degradeStore_eq_io stm _ h]

theorem serveStep2_degrade (spa : Bool) (stm : StoreM) (project rel : Str) :
    serveStep2 spa (degradeStore stm) project rel = serveStep2 spa stm project rel := by
  unfold serveStep2
  by_cases hc : (!(rel.contains '.') && !(strEndsWith rel ['/'])) = true
  · rw [if_pos hc, if_pos hc]
    cases h : stm (safeJoinPosix ("sites/".data ++ project) (rel ++ ".html".data)) with
    | hit obj =>
      rw [degradeStore_eq_hit stm _ obj h]
    | noSuchKey =>
      rw [degradeStore_eq_miss stm _ h]
      exact serveStep3_degrade spa stm project
    | ioError =>
      rw [degradeStore_eq_io stm _ h]
      exact serveStep3_degrade spa stm project
  · rw [if_neg hc, if_neg hc]
    exact serveStep3_degrade spa stm project

theorem serveChain_degrade (spa : Bool) (stm : StoreM) (project rel : Str) :
    serveChain spa (degradeStore stm) project rel = serveChain spa stm project rel := by
  unfold serveChain
  cases h : stm (safeJoinPosix ("sites/".data ++ project) rel) with
  | hit obj =>
    rw [degradeStore_eq_hit stm _ obj h]
  | noSuchKey =>
    rw [degradeStore_eq_miss stm _ h]
    exact serveStep2_degrade spa stm project rel
  | ioError =>
    rw [degradeStore_eq_io stm _ h]
    exact serveStep2_degrade spa stm project rel

theorem serve_degrade (cfg : Config) (stm : StoreM) (host reqPath : Str) :
    serve cfg (degradeStore stm) host reqPath = serve cfg stm host reqPath := by
  unfold serve
  split
  · rfl
  · rename_i project heq
    by_cases h0 : project = []
    · rw [if_pos h0, if_pos h0]
    · rw [if_neg h0, if_neg h0]
      exact serveChain_degrade _ stm project _

theorem head?_take_ne (s : Str) (n : Nat) (a : Char) (h : s.head? ≠ some a) :
    (s.take n).head? ≠ some a := by
  cases s with
  | nil => simp
  | cons c cs =>
    cases n with
    | zero => simp
    | succ m =>
      rw [List.take_succ_cons]
      simpa using h

/-- A `..` path segment forces a `..` substring. -/
theorem containsDotDot_of_seg : ∀ (s : Str), (∃ seg ∈ splitSlash s, seg = ['.', '.']) →
    containsDotDot s = true := by
  intro s
  induction s with
  | nil =>
    rintro ⟨seg, hm, rfl⟩
    simp [splitSlash] at hm
  | cons c cs ih =>
    rintro ⟨seg, hm, rfl⟩
    by_cases h : c = '/'
    · subst h
      have e : splitSlash ('/' :: cs) = [] :: splitSlash cs := by simp [splitSlash]
      rw [e] at hm
      rcases List.mem_cons.mp hm with he | hm
      · simp at he
      · have hcs : containsDotDot cs = true := ih ⟨_, hm, rfl⟩
        cases cs with
        | nil => simp [splitSlash] at hm
        | cons d t =>
          rw [containsDotDot, hcs]
          simp
    · obtain ⟨t₂, ht₂⟩ := splitSlash_head cs
      rw [splitSlash_cons_of_ne c cs h, ht₂] at hm
      rcases List.mem_cons.mp hm with he | hm
      · have hc : c = '.' := by
          have h2 := congrArg (fun l => l.head?) he
          simp at h2
          exact h2.symm
        have htw : cs.takeWhile (fun x => x != '/') = ['.'] := by
          have h2 := congrArg (fun l => l.tail) he
          simp at h2
          exact h2.symm
        subst hc
        cases cs with
        | nil => simp [List.takeWhile] at htw
        | cons d t =>
          have hd : d = '.' := by
            rw [List.takeWhile] at htw
            by_cases hdp : (d != '/') = true
            · rw [hdp] at htw
              simpa using (List.cons.injEq _ _ _ _ ▸ htw).1
            · have hf : (d != '/') = false := by simpa using hdp
              rw [hf] at htw
              simp at htw
          subst hd
          rw [containsDotDot]
          simp
      · have hmem : ['.', '.'] ∈ splitSlash cs := by
          rw [ht₂]
          exact List.mem_cons_of_mem _ hm
        have hcs : containsDotDot cs = true := ih ⟨_, hmem, rfl⟩
        cases cs with
        | nil => simp [splitSlash] at hmem
        | cons d t =>
          rw [containsDotDot, hcs]
          simp

theorem ingest_eq_done (slug : Str) (entries : List ZipEntry) (st : Store)
    (hlen : ¬ entries.length > 2000) :
    ingest slug entries st
      = (.done (entries.filter goodEntry).length
          (entries.filter (fun e => !(goodEntry e))).length,
         applyWrites (writesOf slug entries) st) := by
  unfold ingest
  rw [if_neg hlen]
  rw [ingest_fold_spec slug entries 0 0 st]
  simp

theorem ingest_rejected (slug : Str) (entries : List ZipEntry) (st : Store)
    (hlen : entries.length > 2000) : ingest slug entries st = (.rejected, st) := by
  unfold ingest
  rw [if_pos hlen]

theorem ingest_done_spec (slug : Str) (entries : List ZipEntry) (st : Store)
    (up sk : Nat) (hdone : (ingest slug entries st).1 = .done up sk) :
    up = (entries.filter goodEntry).length
    ∧ sk = (entries.filter (fun e => !(goodEntry e))).length
    ∧ (ingest slug entries st).2 = applyWrites (writesOf slug entries) st := by
  by_cases hlen : entries.length > 2000
  · rw [ingest_rejected slug entries st hlen] at hdone
    simp at hdone
  · rw [ingest_eq_done slug entries st hlen] at hdone
    rw [ingest_eq_done slug entries st hlen]
    simp only [IngestOutcome.done.injEq] at hdone
    exact ⟨hdone.1.symm, hdone.2.symm, rfl⟩

/-- Claim C1 (counterexample to the claim as stated): take the
namespace prefix `sites/demo/` — the slug `demo` is non-empty and has
no `..` segment — and the relative path `..`.  The produced key is
exactly `sites/demo`, which is not prefixed by the namespace
`sites/demo/` (and for this input the claim asserts it is). -/
theorem c1_counterexample :
    ("demo".data ≠ [] ∧ ∀ seg ∈ splitSlash ("demo".data), seg ≠ ['.', '.'])
    ∧ safeJoinPosix ("sites/demo/".data) ("..".data) = "sites/demo".data
    ∧ strStartsWith ("sites/demo".data) ("sites/demo/".data) = false := by
  decide

/-- Claim C1 (amended): for every namespace prefix `sites/<slug>/`
where the slug is non-empty and drawn from the slug alphabet
`[a-z0-9-]`, and every relative path `p`, the key produced by
`safeJoinPosix(prefix, p)` either equals `sites/<slug>` exactly (when
`p` contributes no surviving segment, e.g. `p` empty or consisting of
`.`/`..` segments only) or is prefixed by `sites/<slug>/`; in both
cases the key contains no `..` segment and no empty segment,
regardless of how many `..` segments `p` contains. -/
theorem c1_amended (slug rel : Str) (h : isWfSlug slug) :
    (safeJoinPosix ("sites/".data ++ slug ++ ['/']) rel = "sites/".data ++ slug
      ∨ strStartsWith (safeJoinPosix ("sites/".data ++ slug ++ ['/']) rel)
          ("sites/".data ++ slug ++ ['/']) = true)
    ∧ ∀ seg ∈ splitSlash (safeJoinPosix ("sites/".data ++ slug ++ ['/']) rel),
        seg ≠ [] ∧ seg ≠ ['.', '.'] := by
  rw [safeJoin_pre_slash]
  exact safeJoin_under_ns slug rel h

/-- Claim C1 witness: the amended statement evaluated at slug `demo`
and the traversal path `../../etc/passwd`. -/
theorem c1_witness :
    (safeJoinPosix ("sites/".data ++ "demo".data ++ ['/']) ("../../etc/passwd".data)
        = "sites/".data ++ "demo".data
      ∨ strStartsWith
          (safeJoinPosix ("sites/".data ++ "demo".data ++ ['/']) ("../../etc/passwd".data))
          ("sites/".data ++ "demo".data ++ ['/']) = true)
    ∧ ∀ seg ∈ splitSlash
          (safeJoinPosix ("sites/".data ++ "demo".data ++ ['/']) ("../../etc/passwd".data)),
        seg ≠ [] ∧ seg ≠ ['.', '.'] :=
  c1_amended ("demo".data) ("../../etc/passwd".data) (by decide)

/-- Claim C2 (counterexample to the claim as stated): ingesting an
archive whose single entry is a file named `.` into project `demo`
uploads one object, persisted at the key `sites/demo` itself — a key
that is not under the namespace `sites/demo/`. -/
theorem c2_counterexample :
    (ingest ("demo".data) [dotEntry] emptyStore).1 = .done 1 0
    ∧ (ingest ("demo".data) [dotEntry] emptyStore).2 ("sites/demo".data)
        = some ⟨[104, 105], some ("application/octet-stream".data),
            some ("public, max-age=86400".data)⟩
    ∧ strStartsWith ("sites/demo".data) ("sites/demo/".data) = false := by
  decide

/-- Claim C2 (amended): for every well-formed slug and every archive,
a completed ingestion reports `uploaded + skipped = total entries`,
with `uploaded` counting exactly the surviving entries and `skipped`
the rest; every non-file entry and every entry whose normalized path
has a parent-directory (`..`) segment is skipped; the final store is
the initial store plus one write per surviving entry, and every key
whose content changed is inside the project namespace: it equals
`sites/<slug>` exactly (for a file entry whose path normalizes to no
segments, such as `.`) or is prefixed by `sites/<slug>/`. -/
theorem c2_amended (slug : Str) (entries : List ZipEntry) (st : Store)
    (hwf : isWfSlug slug) (up sk : Nat)
    (hdone : (ingest slug entries st).1 = .done up sk) :
    up + sk = entries.length
    ∧ up = (entries.filter goodEntry).length
    ∧ sk = (entries.filter (fun e => !(goodEntry e))).length
    ∧ (ingest slug entries st).2 = applyWrites (writesOf slug entries) st
    ∧ (∀ e ∈ entries,
        ((e.etype == "File".data) = false
          ∨ ∃ seg ∈ splitSlash (entryRel e), seg = ['.', '.']) →
        goodEntry e = false)
    ∧ ∀ k, (ingest slug entries st).2 k ≠ st k →
        (k = "sites/".data ++ slug
          ∨ strStartsWith k ("sites/".data ++ slug ++ ['/']) = true) := by
  obtain ⟨hup, hsk, hst⟩ := ingest_done_spec slug entries st up sk hdone
  refine ⟨?_, hup, hsk, hst, ?_, ?_⟩
  · rw [hup, hsk]
    exact length_filter_split entries goodEntry
  · intro e _ hbad
    rcases hbad with hnf | hseg
    · simp [goodEntry, hnf]
    · have : containsDotDot (entryRel e) = true := containsDotDot_of_seg _ hseg
      simp [goodEntry, this]
  · intro k hk
    rw [hst] at hk
    obtain ⟨kv, hkv, hkey⟩ := applyWrites_changed _ st k hk
    rw [writesOf] at hkv
    obtain ⟨e, _, hkv'⟩ := List.mem_map.mp hkv
    have hkk : k = entryKey slug e := by
      rw [← hkey, ← hkv']
    rw [hkk, entryKey]
    exact (safeJoin_under_ns slug (entryRel e) hwf).1

/-- Claim C2 witness: the amended statement evaluated on a one-entry
archive holding the ordinary file `a/b.css`, ingested into `demo`. -/
theorem c2_witness :
    1 + 0 = [plainEntry].length
    ∧ 1 = ([plainEntry].filter goodEntry).length
    ∧ 0 = ([plainEntry].filter (fun e => !(goodEntry e))).length
    ∧ (ingest ("demo".data) [plainEntry] emptyStore).2
        = applyWrites (writesOf ("demo".data) [plainEntry]) emptyStore
    ∧ (∀ e ∈ [plainEntry],
        ((e.etype == "File".data) = false
          ∨ ∃ seg ∈ splitSlash (entryRel e), seg = ['.', '.']) →
        goodEntry e = false)
    ∧ ∀ k, (ingest ("demo".data) [plainEntry] emptyStore).2 k ≠ emptyStore k →
        (k = "sites/".data ++ "demo".data
          ∨ strStartsWith k ("sites/".data ++ "demo".data ++ ['/']) = true) :=
  c2_amended ("demo".data) [plainEntry] emptyStore ⟨by decide, by decide⟩ 1 0 (by decide)

/-- Claim C4: an archive listing more than 2000 entries is rejected
whole — the result is the fixed validation rejection and the store is
returned untouched (zero objects written); in the model the check
precedes the entry loop, mirroring `src/index.js:159-161` which runs
before any per-entry extraction or put. -/
theorem c4_reject_oversize (slug : Str) (entries : List ZipEntry) (st : Store)
    (h : entries.length > 2000) :
    ingest slug entries st = (.rejected, st) :=
  ingest_rejected slug entries st h

/-- Claim C4 witness: a 2001-entry archive is rejected with the store
unchanged. -/
theorem c4_witness :
    ingest ("demo".data) (List.replicate 2001 plainEntry) emptyStore
      = (.rejected, emptyStore) :=
  c4_reject_oversize ("demo".data) _ emptyStore
    (by rw [List.length_replicate]; decide)

/-- Claim C9: re-ingesting the identical archive into the same project
is idempotent — the second run reports the same outcome (same
uploaded/skipped counts, or the same rejection) and leaves the store
with the same final keys and bytes (overwrite, last-writer-wins). -/
theorem c9_idempotent (slug : Str) (entries : List ZipEntry) (st : Store) :
    ingest slug entries ((ingest slug entries st).2) = ingest slug entries st := by
  by_cases hlen : entries.length > 2000
  · rw [ingest_rejected slug entries st hlen]
    exact ingest_rejected slug entries st hlen
  · rw [ingest_eq_done slug entries st hlen]
    rw [ingest_eq_done slug entries _ hlen]
    rw [applyWrites_idem]

/-- Claim C10: every file entry whose path, after stripping leading
slashes, contains the two-character substring `..` anywhere fails the
survival test, is counted in `skipped`, and contributes no write to
the store; this is strictly broader than rejecting parent-directory
segments, witnessed by `notes..txt`, which contains the substring but
has no `..` segment. -/
theorem c10_dotdot_substring (slug : Str) (entries : List ZipEntry) (st : Store)
    (up sk : Nat) (hdone : (ingest slug entries st).1 = .done up sk) :
    (∀ e ∈ entries, (e.etype == "File".data) = true →
        containsDotDot (e.epath.dropWhile (fun c => c == '/')) = true →
        goodEntry e = false)
    ∧ sk = (entries.filter (fun e => !(goodEntry e))).length
    ∧ (ingest slug entries st).2 = applyWrites (writesOf slug entries) st
    ∧ (containsDotDot ("notes..txt".data) = true
        ∧ ∀ seg ∈ splitSlash ("notes..txt".data), seg ≠ ['.', '.']) := by
  obtain ⟨hup, hsk, hst⟩ := ingest_done_spec slug entries st up sk hdone
  refine ⟨?_, hsk, hst, by decide, by decide⟩
  intro e _ _ hdot
  simp [goodEntry, entryRel, hdot]

/-- Claim C10 witness: ingesting the single file `notes..txt` into
`demo` uploads nothing, skips one entry, and stores no object at the
would-be key. -/
theorem c10_witness :
    (∀ e ∈ [dotdotEntry], (e.etype == "File".data) = true →
        containsDotDot (e.epath.dropWhile (fun c => c == '/')) = true →
        goodEntry e = false)
    ∧ 1 = ([dotdotEntry].filter (fun e => !(goodEntry e))).length
    ∧ (ingest ("demo".data) [dotdotEntry] emptyStore).2
        = applyWrites (writesOf ("demo".data) [dotdotEntry]) emptyStore
    ∧ (containsDotDot ("notes..txt".data) = true
        ∧ ∀ seg ∈ splitSlash ("notes..txt".data), seg ≠ ['.', '.']) :=
  c10_dotdot_substring ("demo".data) [dotdotEntry] emptyStore 0 1 (by decide)

/-- Claim C3 (counterexample to the claim as stated): with the default
configuration, a store whose lookup of `sites/demo/about` fails with a
non-missing (I/O) failure while `sites/demo/about.html` is present,
the request for `/about` on host `demo.quick-stage.app` is answered
200 with `about.html`'s bytes — the non-missing failure did not abort
the chain and was not surfaced as a server error. -/
theorem c3_counterexample :
    store3 ("sites/demo/about".data) = .ioError
    ∧ serve defaultCfg store3 ("demo.quick-stage.app".data) ("/about".data)
        = ⟨200, some ("text/html; charset=utf-8".data), none, .bytes [1, 2, 3]⟩ := by
  decide

/-- Claim C3 (amended): the serve handler treats every store failure
at a lookup step alike: a missing object and any other store failure
both fall through to the next step of the chain.  Replacing each
non-missing failure by the missing-object condition never changes any
response, so the handler cannot distinguish the two and no store
failure surfaces as a server error from the lookup steps. -/
theorem c3_amended (cfg : Config) (stm : StoreM) (host reqPath : Str) :
    serve cfg (degradeStore stm) host reqPath = serve cfg stm host reqPath :=
  serve_degrade cfg stm host reqPath

/-- Claim C5: content resolution tries the exact key first — with both
`sites/demo/about` and `sites/demo/about.html` stored, `/about` serves
the exact object; with only `about.html` stored, `/about` serves its
contents with content type `text/html; charset=utf-8` through the
implicit-`.html` step; `/about/` (trailing slash) does not trigger the
implicit-`.html` step and ends in 404; neither does a dotted path
(`/x.y` with only `x.y.html` stored is 404). -/
theorem c5_fallback_order :
    serve defaultCfg store5b ("demo.quick-stage.app".data) ("/about".data)
      = ⟨200, some ("application/octet-stream".data),
          some ("public, max-age=86400".data), .bytes [9, 9]⟩
    ∧ serve defaultCfg store5 ("demo.quick-stage.app".data) ("/about".data)
      = ⟨200, some ("text/html; charset=utf-8".data), none, .bytes [1, 2, 3]⟩
    ∧ serve defaultCfg store5 ("demo.quick-stage.app".data) ("/about/".data)
      = notFoundResp
    ∧ serve defaultCfg store5c ("demo.quick-stage.app".data) ("/x.y".data)
      = notFoundResp := by
  decide

/-- Claim C6: whenever step 1 and step 2 of the chain miss (any
non-hit result) and `sites/<project>/index.html` is stored, the chain
with SPA fallback enabled serves that object with HTTP success status
for the requested path; with SPA fallback disabled, the same request
yields the 404 response. -/
theorem c6_spa_fallback (stm : StoreM) (project rel : Str) (obj : StoredObj)
    (h1 : (stm (safeJoinPosix ("sites/".data ++ project) rel)).isHit = false)
    (h2 : (stm (safeJoinPosix ("sites/".data ++ project)
        (rel ++ ".html".data))).isHit = false)
    (h3 : stm ("sites/".data ++ project ++ "/index.html".data) = .hit obj) :
    serveChain true stm project rel
      = ⟨200, some (jsOrStr obj.contentType ("text/html; charset=utf-8".data)),
          none, .bytes obj.body⟩
    ∧ serveChain false stm project rel = notFoundResp := by
  have hstep3t : serveStep3 true stm project
      = ⟨200, some (jsOrStr obj.contentType ("text/html; charset=utf-8".data)),
          none, .bytes obj.body⟩ := by
    unfold serveStep3
    rw [if_pos rfl, h3]
  have hstep2 : ∀ spa, serveStep2 spa stm project rel = serveStep3 spa stm project := by
    intro spa
    unfold serveStep2
    by_cases hc : (!(rel.contains '.') && !(strEndsWith rel ['/'])) = true
    · rw [if_pos hc]
      cases hh : stm (safeJoinPosix ("sites/".data ++ project) (rel ++ ".html".data)) with
      | hit o =>
        rw [hh] at h2
        simp [FetchResult.isHit] at h2
      | noSuchKey => rfl
      | ioError => rfl
    · rw [if_neg hc]
  have hchain : ∀ spa, serveChain spa stm project rel = serveStep3 spa stm project := by
    intro spa
    unfold serveChain
    cases hb : stm (safeJoinPosix ("sites/".data ++ project) rel) with
    | hit o =>
      rw [hb] at h1
      simp [FetchResult.isHit] at h1
    | noSuchKey => exact hstep2 spa
    | ioError => exact hstep2 spa
  refine ⟨by rw [hchain true, hstep3t], ?_⟩
  rw [hchain false]
  rfl

/-- Claim C6 witness: with only `sites/demo/index.html` stored,
requesting `missing/page` serves `index.html` with 200 when SPA
fallback is on, and 404 when it is off. -/
theorem c6_witness :
    serveChain true store6 ("demo".data) ("missing/page".data)
      = ⟨200, some ("text/html; charset=utf-8".data), none, .bytes [5, 6]⟩
    ∧ serveChain false store6 ("demo".data) ("missing/page".data) = notFoundResp := by
  obtain ⟨h1, h2⟩ := c6_spa_fallback store6 ("demo".data) ("missing/page".data) spaObj
    (by decide) (by decide) (by decide)
  refine ⟨?_, h2⟩
  rw [h1]
  decide

/-- Claim C7 (counterexample to the claim as stated): the host
`a.b.quick-stage.app` is neither a main host nor the base domain, and
it is not of the form `<label>.<baseDomain>` for a dot-free label; yet
`getProjectFromHost` returns `a` — the slug-normalization of the first
dot-separated segment — rather than no project (and also not the
normalization `a-b` of the whole subdomain part). -/
theorem c7_counterexample :
    getProjectFromHost defaultCfg ("a.b.quick-stage.app".data) = some ("a".data)
    ∧ ("a.b.quick-stage.app".data) ∉ defaultCfg.mainHosts
    ∧ ("a.b.quick-stage.app".data) ≠ ("quick-stage.app".data)
    ∧ '.' ∈ ("a.b".data)
    ∧ slugify ("a.b".data) = "a-b".data
    ∧ some ("a".data) ≠ (none : Option Str)
    ∧ ("a".data) ≠ ("a-b".data) := by
  decide

/-- Claim C7 (amended): after port stripping and lowercasing, a host
equal to a configured main host or to the base domain resolves to no
project; a host ending in `.` + baseDomain resolves to the
slug-normalization of the first dot-separated segment of the remaining
prefix (which may be the empty string, treated as no project by the
caller's falsiness check); the empty host and every host of any other
shape resolve to no project. -/
theorem c7_amended (cfg : Config) (h : Str) :
    (stripHost h ∈ cfg.mainHosts → getProjectFromHost cfg h = none)
    ∧ (stripHost h = jsToLower cfg.baseDomain → getProjectFromHost cfg h = none)
    ∧ (∀ l, stripHost h = l ++ '.' :: jsToLower cfg.baseDomain →
        stripHost h ∉ cfg.mainHosts →
        getProjectFromHost cfg h
          = some (slugify (l.takeWhile (fun c => !(c == '.')))))
    ∧ (h = [] → getProjectFromHost cfg h = none)
    ∧ (h ≠ [] → stripHost h ∉ cfg.mainHosts →
        stripHost h ≠ jsToLower cfg.baseDomain →
        strEndsWith (stripHost h) ('.' :: jsToLower cfg.baseDomain) = false →
        getProjectFromHost cfg h = none) := by
  refine ⟨?_, ?_, ?_, ?_, ?_⟩
  · intro hm
    by_cases h0 : h = []
    · simp [getProjectFromHost, h0]
    · simp only [getProjectFromHost]
      rw [if_neg h0, if_pos hm]
  · intro hb
    by_cases h0 : h = []
    · simp [getProjectFromHost, h0]
    · by_cases hm : stripHost h ∈ cfg.mainHosts
      · simp only [getProjectFromHost]
        rw [if_neg h0, if_pos hm]
      · simp only [getProjectFromHost]
        rw [if_neg h0, if_neg hm, if_pos hb]
  · intro l hl hm
    have h0 : h ≠ [] := by
      intro h0
      rw [h0] at hl
      simp [stripHost, jsToLower] at hl
    have hb : stripHost h ≠ jsToLower cfg.baseDomain := by
      rw [hl]
      intro he
      have hlen := congrArg List.length he
      simp [List.length_append] at hlen
      omega
    have hew : strEndsWith (stripHost h) ('.' :: jsToLower cfg.baseDomain) = true := by
      rw [hl, strEndsWith]
      have hd : (l ++ '.' :: jsToLower cfg.baseDomain).length
          - ('.' :: jsToLower cfg.baseDomain).length = l.length := by
        simp
      rw [hd, List.drop_left]
      simp
    have htake : (stripHost h).take
        ((stripHost h).length - ((jsToLower cfg.baseDomain).length + 1)) = l := by
      rw [hl]
      have hd : (l ++ '.' :: jsToLower cfg.baseDomain).length
          - ((jsToLower cfg.baseDomain).length + 1) = l.length := by
        simp
      rw [hd]
      exact List.take_left l ('.' :: jsToLower cfg.baseDomain)
    simp only [getProjectFromHost]
    rw [if_neg h0, if_neg hm, if_neg hb, if_pos hew, htake]
  · intro h0
    simp [getProjectFromHost, h0]
  · intro h0 hm hb hewf
    simp only [getProjectFromHost]
    rw [if_neg h0, if_neg hm, if_neg hb, if_neg (by simp [hewf])]

/-- Claim C7 witness: the amended statement evaluated on five concrete
hosts under the default configuration: a main host, the base domain
with a port and mixed case, a multi-label subdomain, the empty host,
and an unrelated domain. -/
theorem c7_witness :
    getProjectFromHost defaultCfg ("www.quickstage.app".data) = none
    ∧ getProjectFromHost defaultCfg ("QUICK-stage.app:8080".data) = none
    ∧ getProjectFromHost defaultCfg ("A.b.quick-stage.app:443".data) = some ("a".data)
    ∧ getProjectFromHost defaultCfg [] = none
    ∧ getProjectFromHost defaultCfg ("example.com".data) = none := by
  refine ⟨(c7_amended defaultCfg _).1 (by decide),
          (c7_amended defaultCfg _).2.1 (by decide), ?_,
          (c7_amended defaultCfg _).2.2.2.1 rfl,
          (c7_amended defaultCfg _).2.2.2.2 (by decide) (by decide) (by decide) (by decide)⟩
  have hc := (c7_amended defaultCfg ("A.b.quick-stage.app:443".data)).2.2.1
    ("a.b".data) (by decide) (by decide)
  rw [hc]
  decide

/-- Claim C8 (counterexample to the claim as stated): on the 64-byte
input of 62 `a`s followed by `-b`, `slugify` returns 62 `a`s followed
by a hyphen — the final `.slice(0, 63)` runs after the edge-hyphen
removal and so reintroduces a trailing hyphen. -/
theorem c8_counterexample :
    slugify (List.replicate 62 'a' ++ "-b".data) = List.replicate 62 'a' ++ ['-']
    ∧ (slugify (List.replicate 62 'a' ++ "-b".data)).getLast? = some '-'
    ∧ (List.replicate 62 'a' ++ "-b".data).length = 64 := by
  decide

/-- Claim C8 (amended): for every input string the slug produced by
`slugify` is drawn from `[a-z0-9-]` (hence lowercase), is at most 63
characters, has no leading hyphen and no repeated hyphens, and — as
long as the normalized string did not exceed 63 characters before the
final truncation — no trailing hyphen either (truncation may leave
one); when the result is empty, the operation producing it fails. -/
theorem c8_amended (input : Str) :
    (∀ c ∈ slugify input, isSlugChar c = true)
    ∧ (slugify input).length ≤ 63
    ∧ (slugify input).head? ≠ some '-'
    ∧ hasDouble (slugify input) = false
    ∧ ((slugCore input).length ≤ 63 → (slugify input).getLast? ≠ some '-')
    ∧ (slugify input = [] ↔ requireSlug input = none) := by
  by_cases h0 : input = []
  · subst h0
    refine ⟨?_, ?_, ?_, ?_, ?_, ?_⟩
    · intro c hc
      simp [slugify] at hc
    · simp [slugify]
    · simp [slugify]
    · rw [show slugify [] = [] from rfl]
      rfl
    · intro hc
      simp [slugify]
    · simp [slugify, requireSlug]
  · obtain ⟨hc, hd, hh, hl⟩ := slugCore_facts input
    have hslug : slugify input = (slugCore input).take 63 := by
      rw [slugify, if_neg h0]
    refine ⟨?_, ?_, ?_, ?_, ?_, ?_⟩
    · intro c hcm
      rw [hslug] at hcm
      exact hc c (List.take_subset _ _ hcm)
    · rw [hslug]
      exact List.length_take_le _ _
    · rw [hslug]
      exact head?_take_ne _ 63 '-' hh
    · rw [hslug]
      exact hasDouble_take _ 63 hd
    · intro hle
      rw [hslug, List.take_of_length_le hle]
      exact hl
    · constructor
      · intro he
        simp [requireSlug, he]
      · intro he
        by_cases hz : slugify input = []
        · exact hz
        · simp [requireSlug, hz] at he

/-- Claim C8 witness: the amended statement evaluated at the input
` Hello  World!`, whose normalization `hello-world` is well within the
63-character bound. -/
theorem c8_witness :
    (∀ c ∈ slugify (" Hello  World!".data), isSlugChar c = true)
    ∧ (slugify (" Hello  World!".data)).length ≤ 63
    ∧ (slugify (" Hello  World!".data)).head? ≠ some '-'
    ∧ hasDouble (slugify (" Hello  World!".data)) = false
    ∧ (slugify (" Hello  World!".data)).getLast? ≠ some '-'
    ∧ (slugify (" Hello  World!".data) = []
        ↔ requireSlug (" Hello  World!".data) = none) := by
  obtain ⟨a, b, c, d, e, f⟩ := c8_amended (" Hello  World!".data)
  exact ⟨a, b, c, d, e (by decide), f⟩
